import Mathlib

/-!
Verification of the Unity-action launcher (src/src/index.ts) against its
natural-language specification.  The filesystem is modelled as a finite tree;
directory listings may carry an error status (permission-denied or another
I/O error code) to model `readdirSync` failures.  The child process is
modelled as a sequence of delivered events (stdout/stderr chunks, a close
event with an optional exit code, or a spawn error).
-/

/-- `startsWithList s p` : `p` is a prefix of `s` (character lists). -/
def startsWithList : List Char → List Char → Bool
  | _, [] => true
  | [], _ :: _ => false
  | c :: cs, p :: ps => c == p && startsWithList cs ps

/-- `hasInfixList s p` : `p` occurs as a contiguous substring of `s`,
mirroring JavaScript `String.prototype.includes`. -/
def hasInfixList : List Char → List Char → Bool
  | [], pat => pat.isEmpty
  | c :: cs, pat => startsWithList (c :: cs) pat || hasInfixList cs pat

/-- JavaScript `s.includes(pat)` on strings. -/
def strIncludes (s pat : String) : Bool :=
  hasInfixList s.toList pat.toList

/-- Whether the first character of `s` is `c`; models JS `s.startsWith("-")`
for a one-character prefix. -/
def firstCharIs (s : String) (c : Char) : Bool :=
  match s.toList with
  | [] => false
  | a :: _ => a == c

/-- `path.join` of a directory and an entry name (separator fixed to `/`). -/
def pathJoin (a b : String) : String := a ++ "/" ++ b

/-- `path.join` of a directory and a relative path given by components. -/
def joinRel (d : String) (ex : List String) : String :=
  pathJoin d (String.intercalate "/" ex)

/-- Result status of `readdirSync` on a directory that fails to list. -/
inductive ReadErr where
  | permDenied
  | otherErr (code : String)
deriving DecidableEq, Repr

/-- A filesystem tree: files and directories.  A directory carries an
optional listing-error status modelling `readdirSync` failures. -/
inductive FsTree where
  | file (name : String)
  | dir (name : String) (readErr : Option ReadErr) (children : List FsTree)

/-- The entry's name (`entry.name`). -/
def fsName : FsTree → String
  | .file n => n
  | .dir n _ _ => n

/-- `entry.isDirectory()`. -/
def fsIsDir : FsTree → Bool
  | .file _ => false
  | .dir _ _ _ => true

/-- The children of a directory node (empty for files). -/
def childrenOf : FsTree → List FsTree
  | .file _ => []
  | .dir _ _ cs => cs

/-- `readdirSync(currDir, { withFileTypes: true })`: lists the immediate
entries, or throws the node's error status (`ENOTDIR` for a file). -/
def readdirE : FsTree → Except ReadErr (List FsTree)
  | .file _ => .error (.otherErr "ENOTDIR")
  | .dir _ (some e) _ => .error e
  | .dir _ none cs => .ok cs

mutual
/-- Number of nodes of a tree (termination measure). -/
def treeSize : FsTree → Nat
  | .file _ => 1
  | .dir _ _ cs => 1 + treeSizeList cs

/-- Total number of nodes of a list of trees. -/
def treeSizeList : List FsTree → Nat
  | [] => 0
  | t :: ts => treeSize t + treeSizeList ts
end

mutual
/-- No directory anywhere in the tree carries a listing-error status. -/
def errFree : FsTree → Bool
  | .file _ => true
  | .dir _ st cs => st.isNone && errFreeList cs

/-- `errFree` for every tree of the list. -/
def errFreeList : List FsTree → Bool
  | [] => true
  | t :: ts => errFree t && errFreeList ts
end

/-- The child entry of `t` named `n`, if any. -/
def childNamed (t : FsTree) (n : String) : Option FsTree :=
  (childrenOf t).find? fun c => fsName c == n

/-- `existsSync(join(dir, path))` : the relative path (as components)
resolves inside the tree. -/
def existsPath : FsTree → List String → Bool
  | _, [] => true
  | t, n :: rest =>
    match childNamed t n with
    | some c => existsPath c rest
    | none => false

/-- Sum of the subtree sizes held in a worklist (termination measure for
the breadth-first search). -/
def queueWeight (q : List (String × FsTree)) : Nat :=
  (q.map fun pr => treeSize pr.2).sum

/-- One level of `findUnityDirectory`: the `for (let i = entries.length - 1; ...)`
loop, applied to `entries.reverse` so the list is scanned in the source's
iteration order.  `Sum.inl` is an immediate return of the matched entry
(joined path and subtree); `Sum.inr` is the list of queue additions. -/
def scanLoop (currDir ver : String) : List FsTree → Sum (String × FsTree) (List (String × FsTree))
  | [] => Sum.inr []
  | e :: rest =>
    if fsIsDir e = false then scanLoop currDir ver rest
    else if strIncludes (fsName e) ver then Sum.inl (pathJoin currDir (fsName e), e)
    else
      match scanLoop currDir ver rest with
      | Sum.inl p => Sum.inl p
      | Sum.inr adds => Sum.inr ((pathJoin currDir (fsName e), e) :: adds)

/-- Upper bound on the weight of the queue additions of one level. -/
theorem scanLoop_weight (currDir ver : String) :
    ∀ (es : List FsTree) (adds : List (String × FsTree)),
      scanLoop currDir ver es = Sum.inr adds →
      queueWeight adds ≤ treeSizeList es := by
  intro es
  induction es with
  | nil =>
    intro adds h
    simp only [scanLoop] at h
    cases h
    simp [queueWeight, treeSizeList]
  | cons e rest ih =>
    intro adds h
    simp only [scanLoop] at h
    by_cases hd : fsIsDir e = false
    · simp only [hd, if_true] at h
      have := ih adds h
      have h1 : 1 ≤ treeSize e := by
        cases e <;> simp [treeSize] <;> omega
      simp [treeSizeList]; omega
    · simp only [hd, if_false] at h
      by_cases hm : strIncludes (fsName e) ver = true
      · simp [hm] at h
      · simp only [hm, if_false] at h
        rcases hrec : scanLoop currDir ver rest with p | adds2
        · rw [hrec] at h; cases h
        · rw [hrec] at h
          cases h
          have := ih adds2 hrec
          simp [queueWeight, treeSizeList] at *
          omega

/-- `findUnityDirectory`'s breadth-first worklist loop.  Elements are
(path, subtree) pairs; the subtree is the filesystem content at the path.
Returns the matched (path, subtree), `none` when the queue empties, or the
propagated I/O error. -/
def findUnityDirLoop (ver : String) : List (String × FsTree) → Except ReadErr (Option (String × FsTree))
  | [] => .ok none
  | (currDir, t) :: q =>
    match h : readdirE t with
    | .error .permDenied => findUnityDirLoop ver q
    | .error (.otherErr c) => .error (.otherErr c)
    | .ok entries =>
      match hs : scanLoop currDir ver entries.reverse with
      | .inl found => .ok (some found)
      | .inr adds => findUnityDirLoop ver (q ++ adds)
termination_by q => queueWeight q
decreasing_by
  · have h1 : 1 ≤ treeSize t := by
      cases t <;> simp [treeSize] <;> omega
    simp [queueWeight]; omega
  · have hw := scanLoop_weight currDir ver entries.reverse adds hs
    have hsz : treeSizeList entries.reverse = treeSizeList entries := by
      clear hw hs h
      induction entries with
      | nil => rfl
      | cons a l ih =>
        have : ∀ (l1 l2 : List FsTree),
            treeSizeList (l1 ++ l2) = treeSizeList l1 + treeSizeList l2 := by
          intro l1
          induction l1 with
          | nil => intro l2; simp [treeSizeList]
          | cons b m ihm => intro l2; simp [treeSizeList, ihm]; omega
        simp [List.reverse_cons, this, treeSizeList, ih]
        omega
    have ht : treeSizeList entries < treeSize t := by
      cases t with
      | file n => simp [readdirE] at h
      | dir n st cs =>
        cases st with
        | none =>
          simp [readdirE] at h
          subst h
          simp [treeSize]
        | some e => simp [readdirE] at h
    have happ : queueWeight (q ++ adds) = queueWeight q + queueWeight adds := by
      simp [queueWeight]
    simp [queueWeight] at *
    omega

/-- `findUnityDirectory(dir, unityVer)`: breadth-first search returning the
joined path of the first matching directory. -/
def findUnityDirectory (dir : String) (t : FsTree) (unityVer : String) :
    Except ReadErr (Option String) :=
  (findUnityDirLoop unityVer [(dir, t)]).map fun r => r.map Prod.fst

theorem treeSize_pos (t : FsTree) : 1 ≤ treeSize t := by
  cases t <;> simp [treeSize]

theorem treeSizeList_append (l1 l2 : List FsTree) :
    treeSizeList (l1 ++ l2) = treeSizeList l1 + treeSizeList l2 := by
  induction l1 with
  | nil => simp [treeSizeList]
  | cons a m ih => simp [treeSizeList, ih]; omega

theorem treeSizeList_reverse (l : List FsTree) :
    treeSizeList l.reverse = treeSizeList l := by
  induction l with
  | nil => rfl
  | cons a m ih =>
    simp [List.reverse_cons, treeSizeList_append, treeSizeList, ih]
    omega

theorem queueWeight_append (q1 q2 : List (String × FsTree)) :
    queueWeight (q1 ++ q2) = queueWeight q1 + queueWeight q2 := by
  simp [queueWeight]

theorem treeSizeList_children_lt (t : FsTree) :
    treeSizeList (childrenOf t) < treeSize t := by
  cases t <;> simp [childrenOf, treeSize, treeSizeList]

theorem queueWeight_filter_map (d : String) (l : List FsTree) :
    queueWeight ((l.filter fsIsDir).map fun e => (pathJoin d (fsName e), e))
      ≤ treeSizeList l := by
  induction l with
  | nil => simp [queueWeight, treeSizeList]
  | cons a m ih =>
    by_cases hd : fsIsDir a = true
    · simp only [List.filter_cons, hd, if_true, List.map_cons]
      have : queueWeight ((pathJoin d (fsName a), a) ::
          ((m.filter fsIsDir).map fun e => (pathJoin d (fsName e), e)))
          = treeSize a + queueWeight ((m.filter fsIsDir).map fun e => (pathJoin d (fsName e), e)) := by
        simp [queueWeight]
      rw [this]
      simp [treeSizeList]
      omega
    · simp only [List.filter_cons, hd, if_false]
      have h1 := treeSize_pos a
      simp [treeSizeList]
      omega

theorem errFreeList_mem :
    ∀ {l : List FsTree} {e : FsTree}, errFreeList l = true → e ∈ l → errFree e = true := by
  intro l
  induction l with
  | nil => intro e _ he; cases he
  | cons a m ih =>
    intro e hl he
    simp only [errFreeList, Bool.and_eq_true] at hl
    rcases List.mem_cons.mp he with rfl | hm
    · exact hl.1
    · exact ih hl.2 hm

theorem listFindAppend {α : Type} (p : α → Bool) (l1 l2 : List α) :
    List.find? p (l1 ++ l2) = (List.find? p l1).orElse fun _ => List.find? p l2 := by
  induction l1 with
  | nil => simp
  | cons a m ih =>
    by_cases h : p a = true
    · simp [List.find?, h, Option.orElse]
    · simp only [List.cons_append, List.find?, h]
      simpa [h] using ih

theorem listFindMap {α β : Type} (f : α → β) (p : β → Bool) (l : List α) :
    List.find? p (l.map f) = (List.find? (fun a => p (f a)) l).map f := by
  induction l with
  | nil => simp
  | cons a m ih =>
    by_cases h : p (f a) = true
    · simp [List.find?, h]
    · simp only [List.map_cons, List.find?, h]
      simpa [h] using ih

/-- Modelled from the spec (phase-1 description): the queue additions of one
level — the directory entries, taken in reverse iteration order, paired with
their joined paths. -/
def specKids (d : String) (t : FsTree) : List (String × FsTree) :=
  ((childrenOf t).reverse.filter fsIsDir).map fun e => (pathJoin d (fsName e), e)

/-- Modelled from the spec (phase-1 description): the breadth-first
examination order — for each dequeued directory, its directory entries in
reverse iteration order as (joined path, entry name) pairs, then the rest of
the queue extended with those entries. -/
def bfsSpecExam : List (String × FsTree) → List (String × String)
  | [] => []
  | pr :: q =>
    (((childrenOf pr.2).reverse.filter fsIsDir).map fun e => (pathJoin pr.1 (fsName e), fsName e))
      ++ bfsSpecExam (q ++ specKids pr.1 pr.2)
termination_by q => queueWeight q
decreasing_by
  have h1 : queueWeight (specKids pr.1 pr.2) ≤ treeSizeList (childrenOf pr.2).reverse :=
    queueWeight_filter_map pr.1 (childrenOf pr.2).reverse
  have h2 := treeSizeList_reverse (childrenOf pr.2)
  have h3 := treeSizeList_children_lt pr.2
  rw [queueWeight_append]
  simp [queueWeight, specKids] at *
  omega

/-- `scanLoop` characterised: it returns the first directory entry of the
scanned list whose name contains the version string, and otherwise the
directory entries of the list as queue additions. -/
theorem scanLoop_eq (currDir ver : String) (es : List FsTree) :
    scanLoop currDir ver es =
      match (es.filter fsIsDir).find? (fun e => strIncludes (fsName e) ver) with
      | some e => Sum.inl (pathJoin currDir (fsName e), e)
      | none => Sum.inr ((es.filter fsIsDir).map fun e => (pathJoin currDir (fsName e), e)) := by
  induction es with
  | nil => simp [scanLoop]
  | cons e rest ih =>
    by_cases hd : fsIsDir e = true
    · by_cases hm : strIncludes (fsName e) ver = true
      · simp [scanLoop, hd, hm, List.filter_cons, List.find?]
      · simp only [scanLoop, hd, if_false, hm, if_false, Bool.not_eq_true]
        rw [ih]
        simp only [List.filter_cons, hd, if_true, List.find?, hm]
        rcases hf : (rest.filter fsIsDir).find? (fun x => strIncludes (fsName x) ver) with _ | e2 <;>
          simp [hf]
    · have hd2 : fsIsDir e = false := by
        cases h : fsIsDir e
        · rfl
        · exact absurd h hd
      simp only [scanLoop, hd2, if_true]
      rw [ih]
      simp [List.filter_cons, hd2]

/-- The breadth-first loop returns exactly the first entry of the
spec-level examination order whose name contains the version string
(mapped to its joined path), provided every queued tree is an error-free
directory. -/
theorem findUnityDirLoop_eq_spec (ver : String) :
    ∀ (n : Nat) (q : List (String × FsTree)), queueWeight q ≤ n →
      (∀ pr ∈ q, fsIsDir pr.2 = true ∧ errFree pr.2 = true) →
      (findUnityDirLoop ver q).map (fun r => r.map Prod.fst) =
        Except.ok (((bfsSpecExam q).find? fun pr => strIncludes pr.2 ver).map Prod.fst) := by
  intro n
  induction n using Nat.strong_induction_on with
  | _ n ih =>
    intro q hle hall
    cases q with
    | nil => simp [findUnityDirLoop, bfsSpecExam, Except.map]
    | cons pr q2 =>
      obtain ⟨d, t⟩ := pr
      obtain ⟨hdir, herr⟩ := hall (d, t) (List.mem_cons_self _ _)
      cases t with
      | file nm => simp [fsIsDir] at hdir
      | dir nm st cs =>
        have hst : st = none := by
          cases st with
          | none => rfl
          | some e => simp [errFree] at herr
        subst hst
        have hcs : errFreeList cs = true := by
          simp only [errFree, Bool.and_eq_true] at herr
          exact herr.2
        rw [findUnityDirLoop, bfsSpecExam]
        simp only [readdirE]
        rw [listFindAppend, listFindMap]
        split
        · rename_i found heq
          rw [scanLoop_eq] at heq
          rcases hf : (cs.reverse.filter fsIsDir).find? (fun e => strIncludes (fsName e) ver)
            with _ | e
          · simp only [hf] at heq
            cases heq
          · simp only [hf] at heq
            cases heq
            have hf3 : List.find? (fun a => strIncludes (fsName a) ver)
                (List.filter fsIsDir cs).reverse = some e := by
              simpa [List.filter_reverse] using hf
            simp [childrenOf, hf3, Except.map, Option.orElse]
        · rename_i adds heq
          rw [scanLoop_eq] at heq
          rcases hf : (cs.reverse.filter fsIsDir).find? (fun e => strIncludes (fsName e) ver)
            with _ | e
          · simp only [hf] at heq
            cases heq
            have hf3 : List.find? (fun a => strIncludes (fsName a) ver)
                (List.filter fsIsDir cs).reverse = none := by
              simpa [List.filter_reverse] using hf
            simp only [childrenOf, List.filter_reverse, hf3, Option.map_none']
            have hlt : queueWeight (q2 ++ specKids d (FsTree.dir nm none cs)) < n := by
              have h1 : queueWeight (specKids d (FsTree.dir nm none cs))
                  ≤ treeSizeList cs.reverse := queueWeight_filter_map d cs.reverse
              have h2 := treeSizeList_reverse cs
              have h3 : queueWeight ((d, FsTree.dir nm none cs) :: q2)
                  = treeSize (FsTree.dir nm none cs) + queueWeight q2 := by
                simp [queueWeight]
              rw [queueWeight_append]
              have h4 : treeSize (FsTree.dir nm none cs) = 1 + treeSizeList cs := by
                simp [treeSize]
              simp [specKids, childrenOf] at h1 ⊢
              omega
            have hmem : ∀ pr2 ∈ q2 ++ specKids d (FsTree.dir nm none cs),
                fsIsDir pr2.2 = true ∧ errFree pr2.2 = true := by
              intro pr2 hpr2
              rcases List.mem_append.mp hpr2 with hq | hk
              · exact hall pr2 (List.mem_cons_of_mem _ hq)
              · simp only [specKids, childrenOf, List.mem_map] at hk
                obtain ⟨e2, he2, rfl⟩ := hk
                have he2f := List.of_mem_filter he2
                have he2m : e2 ∈ cs := List.mem_reverse.mp (List.mem_of_mem_filter he2)
                exact ⟨he2f, errFreeList_mem hcs he2m⟩
            have hrec := ih _ hlt (q2 ++ specKids d (FsTree.dir nm none cs)) (le_refl _) hmem
            have hq : q2 ++ ((List.filter fsIsDir cs).reverse.map fun e => (pathJoin d (fsName e), e))
                = q2 ++ specKids d (FsTree.dir nm none cs) := by
              simp [specKids, childrenOf, List.filter_reverse]
            rw [hq]
            rcases hor : (bfsSpecExam (q2 ++ specKids d (FsTree.dir nm none cs))).find?
                (fun pr => strIncludes pr.2 ver) with _ | e3 <;>
              simp [hor, Option.orElse] at hrec ⊢ <;> exact hrec
          · simp only [hf] at heq
            cases heq

/-- C1: phase-1 directory search is a breadth-first traversal pushing each
level's directory entries in reverse iteration order; it returns the first
directory (in that examination order) whose name contains the version string
as a substring, immediately and without resuming; it returns "not found"
(`Except.ok none`, not an error) when the queue empties; and for two sibling
directories `2021.3.1f1` and `2021.3.10f1` with search version `2021.3.1f1`
it deterministically returns the exact-substring match, in either sibling
order. -/
theorem c1_phase1_bfs_characterization :
    (∀ (root : String) (t : FsTree) (ver : String),
        fsIsDir t = true → errFree t = true →
        findUnityDirectory root t ver =
          Except.ok (((bfsSpecExam [(root, t)]).find? fun pr => strIncludes pr.2 ver).map
            Prod.fst))
    ∧ findUnityDirectory "/opt" (FsTree.dir "opt" none
        [FsTree.dir "2021.3.1f1" none [], FsTree.dir "2021.3.10f1" none []]) "2021.3.1f1"
        = Except.ok (some "/opt/2021.3.1f1")
    ∧ findUnityDirectory "/opt" (FsTree.dir "opt" none
        [FsTree.dir "2021.3.10f1" none [], FsTree.dir "2021.3.1f1" none []]) "2021.3.1f1"
        = Except.ok (some "/opt/2021.3.1f1")
    ∧ (∀ (root nm ver : String),
        findUnityDirectory root (FsTree.dir nm none []) ver = Except.ok none) := by
  refine ⟨?_, ?_, ?_, ?_⟩
  · intro root t ver hdir herr
    have hmem : ∀ pr ∈ [(root, t)], fsIsDir pr.2 = true ∧ errFree pr.2 = true := by
      intro pr hpr
      simp only [List.mem_singleton] at hpr
      subst hpr
      exact ⟨hdir, herr⟩
    exact findUnityDirLoop_eq_spec ver (queueWeight [(root, t)]) [(root, t)] (le_refl _) hmem
  · rw [findUnityDirectory, findUnityDirLoop]
    simp [readdirE, scanLoop, fsIsDir, fsName, pathJoin, Except.map,
      (by decide : strIncludes "2021.3.10f1" "2021.3.1f1" = false),
      (by decide : strIncludes "2021.3.1f1" "2021.3.1f1" = true)]
  · rw [findUnityDirectory, findUnityDirLoop]
    simp [readdirE, scanLoop, fsIsDir, fsName, pathJoin, Except.map,
      (by decide : strIncludes "2021.3.10f1" "2021.3.1f1" = false),
      (by decide : strIncludes "2021.3.1f1" "2021.3.1f1" = true)]
  · intro root nm ver
    simp [findUnityDirectory, findUnityDirLoop, readdirE, scanLoop, Except.map]

/-- Witness for C1: the characterization applied to a concrete two-level
tree, with the hypotheses discharged by evaluation. -/
theorem c1_phase1_bfs_characterization_witness :
    fsIsDir (FsTree.dir "opt" none [FsTree.dir "sub" none [FsTree.dir "2021.3.1f1" none []]]) = true
    ∧ errFree (FsTree.dir "opt" none [FsTree.dir "sub" none [FsTree.dir "2021.3.1f1" none []]]) = true
    ∧ findUnityDirectory "/opt"
        (FsTree.dir "opt" none [FsTree.dir "sub" none [FsTree.dir "2021.3.1f1" none []]])
        "2021.3.1f1"
      = Except.ok (((bfsSpecExam [("/opt",
          FsTree.dir "opt" none [FsTree.dir "sub" none [FsTree.dir "2021.3.1f1" none []]])]).find?
            fun pr => strIncludes pr.2 "2021.3.1f1").map Prod.fst) :=
  ⟨by decide, by decide,
    c1_phase1_bfs_characterization.1 "/opt"
      (FsTree.dir "opt" none [FsTree.dir "sub" none [FsTree.dir "2021.3.1f1" none []]])
      "2021.3.1f1" (by decide) (by decide)⟩

/-- C3: during phase-1 traversal, a permission-denied listing error is
swallowed — the directory behaves exactly like an empty one and the
traversal continues — while any other listing error is returned
immediately, whatever remains in the queue. -/
theorem c3_phase1_error_handling :
    (∀ (ver d nm : String) (cs : List FsTree) (q : List (String × FsTree)),
        findUnityDirLoop ver ((d, FsTree.dir nm (some ReadErr.permDenied) cs) :: q)
          = findUnityDirLoop ver ((d, FsTree.dir nm none []) :: q))
    ∧ (∀ (ver d nm c : String) (cs : List FsTree) (q : List (String × FsTree)),
        findUnityDirLoop ver ((d, FsTree.dir nm (some (ReadErr.otherErr c)) cs) :: q)
          = Except.error (ReadErr.otherErr c)) := by
  constructor
  · intro ver d nm cs q
    simp [findUnityDirLoop, readdirE, scanLoop]
  · intro ver d nm c cs q
    simp [findUnityDirLoop, readdirE]

mutual
/-- `findUnityExecutable(unityDir, executableName)`: returns the joined path
when the relative executable path exists directly under `unityDir`; otherwise
lists the directory (propagating any listing error) and recurses into each
subdirectory in original listing order, returning the first match. -/
def findUnityExecutable (unityDir : String) (t : FsTree) (executableName : List String) :
    Except ReadErr (Option String) :=
  if existsPath t executableName then .ok (some (joinRel unityDir executableName))
  else
    match h : readdirE t with
    | .error e => .error e
    | .ok entries => findUnityExecutableEntries unityDir entries executableName
termination_by sizeOf t
decreasing_by
  cases t with
  | file nm => simp [readdirE] at h
  | dir nm st cs =>
    cases st with
    | none =>
      simp only [readdirE, Except.ok.injEq] at h
      subst h
      simp
    | some e2 => simp [readdirE] at h

/-- The `for (const entry of entries)` loop of `findUnityExecutable`:
skips non-directories, recurses into directories in original order, and
returns the first non-`none` result. -/
def findUnityExecutableEntries (unityDir : String) (es : List FsTree) (executableName : List String) :
    Except ReadErr (Option String) :=
  match es with
  | [] => .ok none
  | e :: rest =>
    if fsIsDir e = false then findUnityExecutableEntries unityDir rest executableName
    else
      match findUnityExecutable (pathJoin unityDir (fsName e)) e executableName with
      | .error er => .error er
      | .ok (some p) => .ok (some p)
      | .ok none => findUnityExecutableEntries unityDir rest executableName
termination_by sizeOf es
decreasing_by
  · simp
  · simp
    omega
  · simp
end

mutual
/-- Modelled from the spec (phase-2 description): the pre-order node list of
the depth-first executable search — the root first, then, for each
subdirectory in original listing order, its pre-order nodes. -/
def dfsSpecNodes : String → FsTree → List (String × FsTree)
  | d, .file n => [(d, .file n)]
  | d, .dir n st cs => (d, .dir n st cs) :: dfsSpecNodesList d cs
termination_by _ t => sizeOf t
decreasing_by
  simp

/-- Modelled from the spec (phase-2 description): pre-order nodes of a list
of entries, directories only, in original listing order. -/
def dfsSpecNodesList (d : String) : List FsTree → List (String × FsTree)
  | [] => []
  | e :: rest =>
    (if fsIsDir e then dfsSpecNodes (pathJoin d (fsName e)) e else [])
      ++ dfsSpecNodesList d rest
termination_by es => sizeOf es
decreasing_by
  · simp
    omega
  · simp
end

/-- The depth-first executable search returns exactly the first node of the
spec-level pre-order node list under which the relative executable path
exists (mapped to the joined path), for error-free directory trees. -/
theorem findUnityExecutable_eq_spec :
    ∀ (n : Nat),
      (∀ (t : FsTree), 2 * treeSize t ≤ n → ∀ (d : String) (ex : List String),
          fsIsDir t = true → errFree t = true →
          findUnityExecutable d t ex =
            Except.ok (((dfsSpecNodes d t).find? fun pr => existsPath pr.2 ex).map
              fun pr => joinRel pr.1 ex))
      ∧ (∀ (es : List FsTree), 2 * treeSizeList es + 1 ≤ n → ∀ (d : String) (ex : List String),
          errFreeList es = true →
          findUnityExecutableEntries d es ex =
            Except.ok (((dfsSpecNodesList d es).find? fun pr => existsPath pr.2 ex).map
              fun pr => joinRel pr.1 ex)) := by
  intro n
  induction n using Nat.strong_induction_on with
  | _ n ih =>
    constructor
    · intro t hn d ex hdir herr
      cases t with
      | file nm => simp [fsIsDir] at hdir
      | dir nm st cs =>
        have hst : st = none := by
          cases st with
          | none => rfl
          | some e => simp [errFree] at herr
        subst hst
        have hcs : errFreeList cs = true := by
          simp only [errFree, Bool.and_eq_true] at herr
          exact herr.2
        rw [findUnityExecutable]
        by_cases hex : existsPath (FsTree.dir nm none cs) ex = true
        · simp [hex, dfsSpecNodes, List.find?]
        · have hex2 : existsPath (FsTree.dir nm none cs) ex = false := by
            cases hval : existsPath (FsTree.dir nm none cs) ex
            · rfl
            · exact absurd hval hex
          simp only [hex2, Bool.false_eq_true, if_false, readdirE]
          have hsz : treeSize (FsTree.dir nm none cs) = 1 + treeSizeList cs := by
            simp [treeSize]
          have hlt : 2 * treeSizeList cs + 1 < n := by omega
          have hrec := (ih _ hlt).2 cs (le_refl _) d ex hcs
          rw [hrec]
          simp [dfsSpecNodes, List.find?, hex2]
    · intro es hn d ex hfree
      cases es with
      | nil => simp [findUnityExecutableEntries, dfsSpecNodesList]
      | cons e rest =>
        simp only [errFreeList, Bool.and_eq_true] at hfree
        obtain ⟨hfe, hfr⟩ := hfree
        have hsz : treeSizeList (e :: rest) = treeSize e + treeSizeList rest := by
          simp [treeSizeList]
        have hpos := treeSize_pos e
        rw [findUnityExecutableEntries, dfsSpecNodesList]
        by_cases hd : fsIsDir e = false
        · have hlt : 2 * treeSizeList rest + 1 < n := by omega
          have hrec := (ih _ hlt).2 rest (le_refl _) d ex hfr
          simp only [hd, if_true, Bool.false_eq_true, if_false, List.nil_append]
          exact hrec
        · have hd2 : fsIsDir e = true := by
            cases hval : fsIsDir e
            · exact absurd hval hd
            · rfl
          have hltf : 2 * treeSize e < n := by omega
          have hfeq := (ih _ hltf).1 e (le_refl _) (pathJoin d (fsName e)) ex hd2 hfe
          simp only [hd2, Bool.true_eq_false, if_false, if_true]
          rw [hfeq, listFindAppend]
          rcases hfind : (dfsSpecNodes (pathJoin d (fsName e)) e).find?
              (fun pr => existsPath pr.2 ex) with _ | pr
          · have hlt : 2 * treeSizeList rest + 1 < n := by omega
            have hrec := (ih _ hlt).2 rest (le_refl _) d ex hfr
            simp only [hfind, Option.map_none', Option.none_orElse]
            exact hrec
          · simp [hfind, Option.orElse]

/-- C2: phase-2 executable search first checks the platform-specific
relative path directly under the found directory and returns it immediately
without descending (even when a same-named file exists one level down);
otherwise it recurses into subdirectories in original listing order and
returns the first pre-order match, or "not found" (`none`) when no match
exists in the subtree — captured by equality with the first matching node
of the spec-level pre-order node list. -/
theorem c2_phase2_dfs_characterization :
    (∀ (d : String) (t : FsTree) (ex : List String),
        fsIsDir t = true → errFree t = true →
        findUnityExecutable d t ex =
          Except.ok (((dfsSpecNodes d t).find? fun pr => existsPath pr.2 ex).map
            fun pr => joinRel pr.1 ex))
    ∧ (∀ (d : String) (t : FsTree) (ex : List String),
        existsPath t ex = true →
        findUnityExecutable d t ex = Except.ok (some (joinRel d ex)))
    ∧ findUnityExecutable "/opt/2021.3.1f1"
        (FsTree.dir "2021.3.1f1" none
          [FsTree.file "Unity", FsTree.dir "Editor" none [FsTree.file "Unity"]])
        ["Unity"]
        = Except.ok (some "/opt/2021.3.1f1/Unity") := by
  have h2 : ∀ (d : String) (t : FsTree) (ex : List String),
      existsPath t ex = true →
      findUnityExecutable d t ex = Except.ok (some (joinRel d ex)) := by
    intro d t ex hex
    rw [findUnityExecutable]
    simp [hex]
  refine ⟨?_, h2, ?_⟩
  · intro d t ex hdir herr
    exact (findUnityExecutable_eq_spec (2 * treeSize t)).1 t (le_refl _) d ex hdir herr
  · have hcall := h2 "/opt/2021.3.1f1"
      (FsTree.dir "2021.3.1f1" none
        [FsTree.file "Unity", FsTree.dir "Editor" none [FsTree.file "Unity"]])
      ["Unity"] (by decide)
    rw [hcall]
    rfl

/-- Witness for C2: the pre-order characterization applied to a concrete
tree whose executable sits one level down. -/
theorem c2_phase2_dfs_characterization_witness :
    fsIsDir (FsTree.dir "root" none [FsTree.dir "Editor" none [FsTree.file "Unity"]]) = true
    ∧ errFree (FsTree.dir "root" none [FsTree.dir "Editor" none [FsTree.file "Unity"]]) = true
    ∧ findUnityExecutable "/u"
        (FsTree.dir "root" none [FsTree.dir "Editor" none [FsTree.file "Unity"]]) ["Unity"]
      = Except.ok (((dfsSpecNodes "/u"
          (FsTree.dir "root" none [FsTree.dir "Editor" none [FsTree.file "Unity"]])).find?
            fun pr => existsPath pr.2 ["Unity"]).map fun pr => joinRel pr.1 ["Unity"]) :=
  ⟨by decide, by decide,
    c2_phase2_dfs_characterization.1 "/u"
      (FsTree.dir "root" none [FsTree.dir "Editor" none [FsTree.file "Unity"]])
      ["Unity"] (by decide) (by decide)⟩

theorem strData_append (t s : String) : (t ++ s).data = t.data ++ s.data := by
  cases t
  cases s
  rfl

theorem firstCharIs_append (t s : String) (c : Char) (h : firstCharIs t c = true) :
    firstCharIs (t ++ s) c = true := by
  unfold firstCharIs at *
  rcases ht : t.toList with _ | ⟨a, as⟩
  · rw [ht] at h
    simp at h
  · have h2 : (t ++ s).toList = a :: (as ++ s.toList) := by
      show (t ++ s).data = a :: (as ++ s.data)
      rw [strData_append]
      have h3 : t.data = a :: as := ht
      rw [h3]
      rfl
    rw [h2]
    rw [ht] at h
    simpa using h

/-- JavaScript `s.split(sep)` for a one-character separator, on character
lists: consecutive separators and boundary separators produce empty
tokens, and the empty input produces one empty token. -/
def splitChar (sep : Char) : List Char → List (List Char)
  | [] => [[]]
  | c :: cs =>
    let r := splitChar sep cs
    if c == sep then [] :: r
    else
      match r with
      | [] => [[c]]
      | w :: ws => (c :: w) :: ws

/-- JavaScript `s.split(sep)` on strings. -/
def jsSplit (s : String) (sep : Char) : List String :=
  (splitChar sep s.toList).map fun w => String.mk w

/-- The fixed prefix of invocation flags built by `getBuildArguments`. -/
def fixedArgs (projectPath executeMethod : String) : List String :=
  ["-quit", "-batchmode", "-logFile -",
   "-projectPath " ++ projectPath, "-executeMethod " ++ executeMethod]

/-- The `for (let i = 0; i < tokens.length; i++)` re-parsing loop of
`getBuildArguments`: a dash-initial token consumes the immediately
following token as its value when that token exists, is nonempty (JS
truthiness of `tokens[i + 1]`), and does not itself start with a dash; the
pair is joined with one space; tokens that do not start with a dash and
are not consumed are dropped. -/
def parseCustomTokens : List String → List String
  | [] => []
  | t :: rest =>
    if firstCharIs t '-' then
      match rest with
      | [] => [t]
      | v :: rest2 =>
        if v != "" && !(firstCharIs v '-') then
          (t ++ " " ++ v) :: parseCustomTokens rest2
        else
          t :: parseCustomTokens (v :: rest2)
    else
      parseCustomTokens rest

/-- `getBuildArguments(projectPath, executeMethod, customOptions)`: the
fixed flags followed by the re-parsed custom tokens. -/
def getBuildArguments (projectPath executeMethod customOptions : String) : List String :=
  fixedArgs projectPath executeMethod ++
    parseCustomTokens (if customOptions = "" then [] else jsSplit customOptions ' ')

/-- Modelled from the spec claim for C4 (the re-parsing rule as worded): a
token starting with a dash begins a new flag; an immediately following
token that exists and does not itself start with a dash is consumed as the
flag's value and joined with a single space; tokens that do not start with
a dash and are not consumed are dropped.  (No nonemptiness condition on
the consumed token.) -/
def specParseCustomTokens : List String → List String
  | [] => []
  | t :: rest =>
    if firstCharIs t '-' then
      match rest with
      | [] => [t]
      | v :: rest2 =>
        if !(firstCharIs v '-') then
          (t ++ " " ++ v) :: specParseCustomTokens rest2
        else
          t :: specParseCustomTokens (v :: rest2)
    else
      specParseCustomTokens rest

/-- Modelled from the amended claim for C4: as the spec's rule, except that
an immediately following token is consumed as a value only when it exists,
is nonempty, and does not start with a dash. -/
def specParseCustomTokensAmended : List String → List String
  | [] => []
  | t :: rest =>
    if firstCharIs t '-' then
      match rest with
      | [] => [t]
      | v :: rest2 =>
        if v = "" then
          t :: specParseCustomTokensAmended (v :: rest2)
        else if firstCharIs v '-' then
          t :: specParseCustomTokensAmended (v :: rest2)
        else
          (t ++ " " ++ v) :: specParseCustomTokensAmended rest2
    else
      specParseCustomTokensAmended rest

/-- The source's re-parsing loop implements the amended rule. -/
theorem parseCustomTokens_eq_amended :
    ∀ (n : Nat) (ts : List String), ts.length ≤ n →
      parseCustomTokens ts = specParseCustomTokensAmended ts := by
  intro n
  induction n with
  | zero =>
    intro ts hle
    cases ts with
    | nil => rfl
    | cons t rest => simp at hle
  | succ k ih =>
    intro ts hle
    cases ts with
    | nil => rfl
    | cons t rest =>
      simp only [List.length_cons, Nat.succ_le_succ_iff] at hle
      cases rest with
      | nil =>
        by_cases hdash : firstCharIs t '-' = true <;>
          simp [parseCustomTokens, specParseCustomTokensAmended, hdash]
      | cons v rest2 =>
        simp only [parseCustomTokens, specParseCustomTokensAmended]
        by_cases hdash : firstCharIs t '-' = true
        · simp only [hdash, if_true]
          by_cases hv : v = ""
          · subst hv
            have hlen : ("" :: rest2).length ≤ k := hle
            rw [ih ("" :: rest2) hlen]
            simp
          · by_cases hvd : firstCharIs v '-' = true
            · have hlen : (v :: rest2).length ≤ k := hle
              rw [ih (v :: rest2) hlen]
              simp [hv, hvd]
            · have hlen2 : rest2.length ≤ k := by
                simp only [List.length_cons] at hle
                omega
              rw [ih rest2 hlen2]
              simp [hv, hvd]
        · simp only [hdash, if_false]
          exact ih (v :: rest2) hle

/-- Every entry produced by the re-parsing loop starts with a dash: tokens
that do not start with a dash and are not consumed as values are dropped. -/
theorem parseCustomTokens_dash :
    ∀ (n : Nat) (ts : List String), ts.length ≤ n →
      ∀ s ∈ parseCustomTokens ts, firstCharIs s '-' = true := by
  intro n
  induction n with
  | zero =>
    intro ts hle s hs
    cases ts with
    | nil => simp [parseCustomTokens] at hs
    | cons t rest => simp at hle
  | succ k ih =>
    intro ts hle s hs
    cases ts with
    | nil => simp [parseCustomTokens] at hs
    | cons t rest =>
      simp only [List.length_cons, Nat.succ_le_succ_iff] at hle
      cases rest with
      | nil =>
        rw [parseCustomTokens] at hs
        by_cases hdash : firstCharIs t '-' = true
        · simp only [hdash, if_true, List.mem_singleton] at hs
          subst hs
          exact hdash
        · simp [hdash, parseCustomTokens] at hs
      | cons v rest2 =>
        rw [parseCustomTokens] at hs
        by_cases hdash : firstCharIs t '-' = true
        · simp only [hdash, if_true] at hs
          by_cases hcons : (v != "" && !(firstCharIs v '-')) = true
          · simp only [hcons, if_true, List.mem_cons] at hs
            rcases hs with rfl | hs
            · exact firstCharIs_append (t ++ " ") v '-' (firstCharIs_append t " " '-' hdash)
            · exact ih rest2 (by simp at hle; omega) s hs
          · have hcons2 : (v != "" && !(firstCharIs v '-')) = false := by
              cases hval : (v != "" && !(firstCharIs v '-'))
              · rfl
              · exact absurd hval hcons
            simp only [hcons2, Bool.false_eq_true, if_false, List.mem_cons] at hs
            rcases hs with rfl | hs
            · exact hdash
            · exact ih (v :: rest2) hle s hs
        · simp only [hdash, if_false] at hs
          exact ih (v :: rest2) hle s hs

/-- C4 counterexample: for the custom string "-a  b" (note the double
space), JavaScript splitting yields the tokens ["-a", "", "b"]; the claim's
rule ("an immediately following token that exists and does not start with a
dash is consumed as that flag's value") consumes the empty token and
produces the entry "-a ", but the code requires the following token to be
nonempty (JS truthiness) and emits "-a" alone. -/
theorem c4_argument_builder_counterexample :
    getBuildArguments "p" "m" "-a  b" = fixedArgs "p" "m" ++ ["-a"]
    ∧ specParseCustomTokens (jsSplit "-a  b" ' ') = ["-a "]
    ∧ (["-a"] : List String) ≠ ["-a "] := by
  refine ⟨?_, by decide, by decide⟩
  rw [getBuildArguments]
  have h : parseCustomTokens (if ("-a  b" : String) = "" then [] else jsSplit "-a  b" ' ')
      = ["-a"] := by decide
  rw [h]

/-- C4 (amended): the built argument list is the fixed prefix of invocation
flags followed by the re-parsed custom tokens in original relative order,
where a token starting with a dash begins a new flag, an immediately
following token that exists, is nonempty, and does not start with a dash is
consumed as that flag's value (joined with a single space), a flag with no
such following token is emitted alone, and every token that does not start
with a dash and is not consumed is silently dropped; the example string
"-test -targetPlatform StandaloneWindows64 -quit" yields exactly the
entries "-test", "-targetPlatform StandaloneWindows64", "-quit". -/
theorem c4_argument_builder_amended :
    (∀ (p m c : String),
        getBuildArguments p m c
          = fixedArgs p m
            ++ specParseCustomTokensAmended (if c = "" then [] else jsSplit c ' '))
    ∧ (∀ (p m : String),
        getBuildArguments p m "-test -targetPlatform StandaloneWindows64 -quit"
          = fixedArgs p m ++ ["-test", "-targetPlatform StandaloneWindows64", "-quit"])
    ∧ (∀ (ts : List String) (s : String),
        s ∈ parseCustomTokens ts → firstCharIs s '-' = true) := by
  refine ⟨?_, ?_, ?_⟩
  · intro p m c
    rw [getBuildArguments]
    exact congrArg (fixedArgs p m ++ ·)
      (parseCustomTokens_eq_amended _ _ (le_refl _))
  · intro p m
    rw [getBuildArguments]
    have h : parseCustomTokens
        (if ("-test -targetPlatform StandaloneWindows64 -quit" : String) = ""
         then [] else jsSplit "-test -targetPlatform StandaloneWindows64 -quit" ' ')
        = ["-test", "-targetPlatform StandaloneWindows64", "-quit"] := by decide
    rw [h]
  · intro ts s hs
    exact parseCustomTokens_dash ts.length ts (le_refl _) s hs

/-- Witness for C4 (amended): the dropped-token property applied at a
concrete token list. -/
theorem c4_argument_builder_amended_witness :
    ("-x" : String) ∈ parseCustomTokens ["-x"] ∧ firstCharIs "-x" '-' = true :=
  ⟨by decide, c4_argument_builder_amended.2.2 ["-x"] "-x" (by decide)⟩

/-- JavaScript `s.trim()`: strip leading and trailing whitespace. -/
def trimStr (s : String) : String :=
  String.mk (((s.toList.dropWhile Char.isWhitespace).reverse.dropWhile Char.isWhitespace).reverse)

/-- `getUnityVersion(projectPath)`: the version descriptor file content is
`none` when the file is missing or unreadable.  The first line containing
`m_EditorVersion:` (or the empty string when no line matches) is split on
single spaces; index 1 is returned trimmed, and its absence (which makes
`.trim()` throw in the source) is the same caught ParseError as a read
failure. -/
def getUnityVersion (file : Option String) : Except String String :=
  match file with
  | none => .error "Failed to parse project version."
  | some content =>
    match (jsSplit (((jsSplit content '\n').find? fun l =>
        strIncludes l "m_EditorVersion:").getD "") ' ')[1]? with
    | none => .error "Failed to parse project version."
    | some f => .ok (trimStr f)

/-- Splitting a character list at every character satisfying `p`. -/
def splitByPred (p : Char → Bool) : List Char → List (List Char)
  | [] => [[]]
  | c :: cs =>
    let r := splitByPred p cs
    if p c then [] :: r
    else
      match r with
      | [] => [[c]]
      | w :: ws => (c :: w) :: ws

/-- Modelled from the spec claim for C8: the whitespace-separated fields of
a line (maximal nonempty runs of non-whitespace characters). -/
def wsFields (s : String) : List String :=
  ((splitByPred Char.isWhitespace s.toList).map fun w => String.mk w).filter
    fun w => w != ""

/-- Modelled from the spec claim for C8: the trimmed second
whitespace-separated field of the first line containing the marker. -/
def specVersionFieldWS (content : String) : Option String :=
  ((jsSplit content '\n').find? fun l => strIncludes l "m_EditorVersion:").bind
    fun l => ((wsFields l)[1]?).map trimStr

instance {ε α : Type} [DecidableEq ε] [DecidableEq α] : DecidableEq (Except ε α) := fun x y =>
  match x, y with
  | .error a, .error b =>
    if h : a = b then isTrue (by rw [h]) else isFalse (by intro hc; cases hc; exact h rfl)
  | .ok a, .ok b =>
    if h : a = b then isTrue (by rw [h]) else isFalse (by intro hc; cases hc; exact h rfl)
  | .error _, .ok _ => isFalse (by intro hc; cases hc)
  | .ok _, .error _ => isFalse (by intro hc; cases hc)

/-- C8 counterexample: for the content "m_EditorVersion:  2021.3.1f1"
(double space), the code returns the empty string — the second
single-space-separated field — while the claim's "second
whitespace-separated field" is "2021.3.1f1". -/
theorem c8_version_reader_counterexample :
    getUnityVersion (some "m_EditorVersion:  2021.3.1f1") = Except.ok ""
    ∧ specVersionFieldWS "m_EditorVersion:  2021.3.1f1" = some "2021.3.1f1"
    ∧ ("" : String) ≠ "2021.3.1f1" := by
  refine ⟨by decide, by decide, by decide⟩

/-- C8 (amended): the version reader returns the trimmed second
single-space-separated field of the first line containing the marker
`m_EditorVersion:`, when that field exists, and fails with a ParseError
when the file is missing or unreadable, or when no line contains the
marker. -/
theorem c8_version_reader_amended :
    getUnityVersion none = Except.error "Failed to parse project version."
    ∧ (∀ (content : String),
        ((jsSplit content '\n').find? fun l => strIncludes l "m_EditorVersion:") = none →
        getUnityVersion (some content) = Except.error "Failed to parse project version.")
    ∧ (∀ (content line f : String),
        ((jsSplit content '\n').find? fun l => strIncludes l "m_EditorVersion:") = some line →
        (jsSplit line ' ')[1]? = some f →
        getUnityVersion (some content) = Except.ok (trimStr f)) := by
  refine ⟨rfl, ?_, ?_⟩
  · intro content hfind
    simp only [getUnityVersion, hfind, Option.getD]
    rfl
  · intro content line f hfind hsecond
    simp only [getUnityVersion, hfind, Option.getD, hsecond]

/-- Witness for C8 (amended): a well-formed single-line descriptor. -/
theorem c8_version_reader_amended_witness :
    ((jsSplit "m_EditorVersion: 2021.3.1f1" '\n').find? fun l =>
        strIncludes l "m_EditorVersion:") = some "m_EditorVersion: 2021.3.1f1"
    ∧ (jsSplit "m_EditorVersion: 2021.3.1f1" ' ')[1]? = some "2021.3.1f1"
    ∧ getUnityVersion (some "m_EditorVersion: 2021.3.1f1")
        = Except.ok (trimStr "2021.3.1f1") :=
  ⟨by decide, by decide,
    c8_version_reader_amended.2.2 "m_EditorVersion: 2021.3.1f1"
      "m_EditorVersion: 2021.3.1f1" "2021.3.1f1" (by decide) (by decide)⟩

/-- The result of `os.platform()`. -/
inductive Platform where
  | win32
  | darwin
  | linux
  | other (name : String)
deriving DecidableEq

/-- `getUnityInstallDir(installDir)`: an explicitly supplied install dir is
returned unchecked when truthy (nonempty); otherwise the platform default,
or a thrown configuration error on an unsupported platform. -/
def getUnityInstallDir (plat : Platform) (installDir : Option String) : Except String String :=
  if installDir.getD "" ≠ "" then Except.ok (installDir.getD "")
  else
    match plat with
    | .win32 => .ok "C:\\Program Files\\"
    | .darwin => .ok "/Applications/"
    | .linux => .ok "/opt/"
    | .other _ => .error "Unsupported platform."

/-- The platform-specific relative executable path used by
`getUnityExecutable` (`none` on an unsupported platform, for which the
function returns `undefined` instead of searching). -/
def execRelPath : Platform → Option (List String)
  | .win32 => some ["Unity.exe"]
  | .darwin => some ["Unity.app", "Contents", "MacOS", "Unity"]
  | .linux => some ["Unity"]
  | .other _ => none

/-- `getUnityExecutable(installDir, version)`: phase-1 search for the
version directory, then the platform dispatch and the phase-2 search;
`Except.ok none` models `undefined`. -/
def getUnityExecutable (plat : Platform) (installDir : String) (fs : FsTree) (version : String) :
    Except ReadErr (Option String) :=
  match findUnityDirLoop version [(installDir, fs)] with
  | .error e => .error e
  | .ok none => .ok none
  | .ok (some (unityDir, subtree)) =>
    match execRelPath plat with
    | some ex => findUnityExecutable unityDir subtree ex
    | none => .ok none

/-- The message under which a propagated filesystem error reaches the
orchestrator's catch block. -/
def renderReadErr : ReadErr → String
  | .permDenied => "EACCES"
  | .otherErr c => c

/-- The orchestrator slice up to executable location: resolve the install
root, then locate the executable; a thrown error at either stage
propagates. -/
def locateExecutable (plat : Platform) (installDirEnv : Option String) (fs : FsTree)
    (ver : String) : Except String (Option String) :=
  match getUnityInstallDir plat installDirEnv with
  | .error e => .error e
  | .ok root =>
    match getUnityExecutable plat root fs ver with
    | .error e => .error (renderReadErr e)
    | .ok r => .ok r

/-- C9 counterexample: on an unsupported platform with an explicitly
supplied install root, no configuration error is raised before the search:
the phase-1 filesystem search runs (an I/O failure inside it surfaces as
the outcome), and on an intact filesystem the locator returns "not found"
(`Except.ok none`) rather than failing. -/
theorem c9_unsupported_platform_counterexample :
    locateExecutable (Platform.other "aix") (some "/custom")
        (FsTree.dir "custom" none [FsTree.dir "2021.3.1f1" none []]) "2021.3.1f1"
      = Except.ok none
    ∧ locateExecutable (Platform.other "aix") (some "/custom")
        (FsTree.dir "custom" (some (ReadErr.otherErr "EIO")) []) "2021.3.1f1"
      = Except.error "EIO"
    ∧ (Except.ok (none : Option String) : Except String (Option String))
        ≠ Except.error "Unsupported platform."
    ∧ (Except.error "EIO" : Except String (Option String))
        ≠ Except.error "Unsupported platform." := by
  refine ⟨?_, ?_, by decide, by decide⟩
  · have hdir : findUnityDirLoop "2021.3.1f1"
        [("/custom", FsTree.dir "custom" none [FsTree.dir "2021.3.1f1" none []])]
        = Except.ok (some ("/custom/2021.3.1f1", FsTree.dir "2021.3.1f1" none [])) := by
      rw [findUnityDirLoop]
      simp [readdirE, scanLoop, fsIsDir, fsName, pathJoin,
        (by decide : strIncludes "2021.3.1f1" "2021.3.1f1" = true)]
    rw [locateExecutable]
    have hroot : getUnityInstallDir (Platform.other "aix") (some "/custom")
        = Except.ok "/custom" := by decide
    unfold getUnityExecutable
    simp only [hroot, hdir]
    simp [execRelPath]
  · have hdir : findUnityDirLoop "2021.3.1f1"
        [("/custom", FsTree.dir "custom" (some (ReadErr.otherErr "EIO")) [])]
        = Except.error (ReadErr.otherErr "EIO") := by
      rw [findUnityDirLoop]
      simp [readdirE]
    rw [locateExecutable]
    have hroot : getUnityInstallDir (Platform.other "aix") (some "/custom")
        = Except.ok "/custom" := by decide
    unfold getUnityExecutable
    simp only [hroot, hdir]
    simp [renderReadErr]

/-- C9 (amended): with no install root supplied (or an empty one), an
unsupported platform raises the fatal configuration error "Unsupported
platform." before any filesystem access; with a nonempty root supplied, no
configuration error is raised: the phase-1 search runs, and the locator
yields that search's propagated I/O error or "not found" — never an
executable and never a configuration error. -/
theorem c9_unsupported_platform_amended :
    (∀ (s : String), getUnityInstallDir (Platform.other s) none
        = Except.error "Unsupported platform.")
    ∧ (∀ (s : String), getUnityInstallDir (Platform.other s) (some "")
        = Except.error "Unsupported platform.")
    ∧ (∀ (s : String) (fs : FsTree) (ver : String),
        locateExecutable (Platform.other s) none fs ver
          = Except.error "Unsupported platform.")
    ∧ (∀ (s root : String) (fs : FsTree) (ver : String), root ≠ "" →
        locateExecutable (Platform.other s) (some root) fs ver
          = match findUnityDirLoop ver [(root, fs)] with
            | .error e => Except.error (renderReadErr e)
            | .ok _ => Except.ok none) := by
  refine ⟨?_, ?_, ?_, ?_⟩
  · intro s
    simp [getUnityInstallDir]
  · intro s
    simp [getUnityInstallDir]
  · intro s fs ver
    simp [locateExecutable, getUnityInstallDir]
  · intro s root fs ver hroot
    rw [locateExecutable]
    have h1 : getUnityInstallDir (Platform.other s) (some root) = Except.ok root := by
      simp [getUnityInstallDir, hroot]
    unfold getUnityExecutable
    simp only [h1]
    rcases hd : findUnityDirLoop ver [(root, fs)] with e | r
    · simp [hd]
    · rcases r with _ | pr
      · simp [hd]
      · rcases pr with ⟨unityDir, subtree⟩
        simp [hd, execRelPath]

/-- Witness for C9 (amended): a concrete unsupported platform with a
supplied root. -/
theorem c9_unsupported_platform_amended_witness :
    ("/r" : String) ≠ ""
    ∧ locateExecutable (Platform.other "aix") (some "/r") (FsTree.dir "r" none []) "v"
        = match findUnityDirLoop "v" [("/r", FsTree.dir "r" none [])] with
          | .error e => Except.error (renderReadErr e)
          | .ok _ => Except.ok none :=
  ⟨by decide,
    c9_unsupported_platform_amended.2.2.2 "aix" "/r" (FsTree.dir "r" none []) "v" (by decide)⟩

/-- A console line produced by the runner's event handlers: an echoed
stdout chunk, an echoed stderr chunk, or one of the two status messages. -/
inductive ConsoleLine where
  | chunkOut (s : String)
  | chunkErr (s : String)
  | infoMsg (s : String)
  | errMsg (s : String)
deriving DecidableEq

/-- An event delivered to the handlers attached in `executeUnityBuild`: an
output chunk on one of the two streams, the `close` event carrying the
child's exit code (`none` models a `null` code), or the `error` event of a
failed spawn. -/
inductive PEvent where
  | stdoutData (s : String)
  | stderrData (s : String)
  | closeEvt (code : Option Int)
  | errorEvt (msg : String)
deriving DecidableEq

/-- JS string interpolation of a `number | null` exit code. -/
def renderCode : Option Int → String
  | none => "null"
  | some c => toString c

/-- The runner's observable state: the log-file content (appended chunks in
order), the console lines, whether the log stream is open, and how many
times it has been ended. -/
structure RunnerState where
  logChunks : List String
  console : List ConsoleLine
  logOpen : Bool
  closeCount : Nat
deriving DecidableEq

/-- The state after `createWriteStream` (log open) and before any event. -/
def initialRunnerState : RunnerState :=
  { logChunks := [], console := [], logOpen := true, closeCount := 0 }

/-- One event-handler invocation of `executeUnityBuild`: data chunks are
echoed to the console and appended to the log; `close` logs the status
message, ends the log stream and resolves with `code ?? 1`; `error` logs
"Process failed", ends the log stream and rejects. -/
def runnerStep (st : RunnerState) : PEvent → RunnerState × Option (Except String Int)
  | .stdoutData s =>
    ({ st with logChunks := st.logChunks ++ [s],
               console := st.console ++ [ConsoleLine.chunkOut s] }, none)
  | .stderrData s =>
    ({ st with logChunks := st.logChunks ++ [s],
               console := st.console ++ [ConsoleLine.chunkErr s] }, none)
  | .closeEvt code =>
    ({ st with
        console := st.console ++
          [if code == some 0 then ConsoleLine.infoMsg "Unity build completed successfully."
           else ConsoleLine.errMsg ("Process exited with code: " ++ renderCode code)],
        logOpen := false,
        closeCount := st.closeCount + 1 },
     some (Except.ok (code.getD 1)))
  | .errorEvt m =>
    ({ st with
        console := st.console ++ [ConsoleLine.errMsg ("Process failed: " ++ m)],
        logOpen := false,
        closeCount := st.closeCount + 1 },
     some (Except.error m))

/-- Delivering events in order; the first terminal event settles the
promise (second component `some r`). -/
def runEvents : RunnerState → List PEvent → RunnerState × Option (Except String Int)
  | st, [] => (st, none)
  | st, e :: rest =>
    match runnerStep st e with
    | (st2, none) => runEvents st2 rest
    | (st2, some r) => (st2, some r)

/-- `executeUnityBuild(...)` in streaming mode, as a function of the
delivered event sequence. -/
def executeUnityBuild (events : List PEvent) : RunnerState × Option (Except String Int) :=
  runEvents initialRunnerState events

/-- `main`'s mapping of the awaited build result to the process exit code:
the resolved code, or 1 for any thrown or rejected error. -/
def mainExitCode : Except String Int → Int
  | .error _ => 1
  | .ok c => c

/-- Whether an event is an output chunk (handled without settling). -/
def isDataEvent : PEvent → Bool
  | .stdoutData _ => true
  | .stderrData _ => true
  | .closeEvt _ => false
  | .errorEvt _ => false

/-- The chunk payloads delivered before the first terminal event. -/
def deliveredChunks : List PEvent → List String
  | [] => []
  | .stdoutData s :: rest => s :: deliveredChunks rest
  | .stderrData s :: rest => s :: deliveredChunks rest
  | .closeEvt _ :: _ => []
  | .errorEvt _ :: _ => []

/-- The chunk payloads echoed to the console, in order. -/
def echoedChunks : List ConsoleLine → List String
  | [] => []
  | .chunkOut s :: r => s :: echoedChunks r
  | .chunkErr s :: r => s :: echoedChunks r
  | .infoMsg _ :: r => echoedChunks r
  | .errMsg _ :: r => echoedChunks r

theorem echoedChunks_append (l1 l2 : List ConsoleLine) :
    echoedChunks (l1 ++ l2) = echoedChunks l1 ++ echoedChunks l2 := by
  induction l1 with
  | nil => rfl
  | cons a m ih => cases a <;> simp [echoedChunks, ih]

/-- The log and the console echoes accumulate exactly the delivered
chunks, in delivery order. -/
theorem runEvents_log (evs : List PEvent) :
    ∀ (st : RunnerState),
      (runEvents st evs).1.logChunks = st.logChunks ++ deliveredChunks evs
      ∧ echoedChunks (runEvents st evs).1.console
          = echoedChunks st.console ++ deliveredChunks evs := by
  induction evs with
  | nil => intro st; simp [runEvents, deliveredChunks]
  | cons e rest ih =>
    intro st
    cases e with
    | stdoutData s =>
      have h := ih { st with logChunks := st.logChunks ++ [s],
                             console := st.console ++ [ConsoleLine.chunkOut s] }
      simp only [runEvents, runnerStep] at *
      rcases h with ⟨h1, h2⟩
      rw [h1, h2]
      simp [deliveredChunks, echoedChunks_append, echoedChunks]
    | stderrData s =>
      have h := ih { st with logChunks := st.logChunks ++ [s],
                             console := st.console ++ [ConsoleLine.chunkErr s] }
      simp only [runEvents, runnerStep] at *
      rcases h with ⟨h1, h2⟩
      rw [h1, h2]
      simp [deliveredChunks, echoedChunks_append, echoedChunks]
    | closeEvt code =>
      simp only [runEvents, runnerStep]
      constructor
      · simp [deliveredChunks]
      · rcases code with _ | c <;>
          simp [deliveredChunks, echoedChunks_append, echoedChunks] <;>
          split <;> simp [echoedChunks]
    | errorEvt m =>
      simp only [runEvents, runnerStep]
      constructor
      · simp [deliveredChunks]
      · simp [deliveredChunks, echoedChunks_append, echoedChunks]

/-- Whenever the promise settles, the log stream has been ended exactly
once more than before and is closed. -/
theorem runEvents_closes (evs : List PEvent) :
    ∀ (st st2 : RunnerState) (r : Except String Int),
      runEvents st evs = (st2, some r) →
      st2.logOpen = false ∧ st2.closeCount = st.closeCount + 1 := by
  induction evs with
  | nil =>
    intro st st2 r h
    simp [runEvents] at h
  | cons e rest ih =>
    intro st st2 r h
    cases e with
    | stdoutData s =>
      simp only [runEvents, runnerStep] at h
      simpa using ih _ _ _ h
    | stderrData s =>
      simp only [runEvents, runnerStep] at h
      simpa using ih _ _ _ h
    | closeEvt code =>
      simp only [runEvents, runnerStep, Prod.mk.injEq] at h
      rcases h with ⟨h1, _⟩
      subst h1
      simp
    | errorEvt m =>
      simp only [runEvents, runnerStep, Prod.mk.injEq] at h
      rcases h with ⟨h1, _⟩
      subst h1
      simp

/-- The state reached after applying a sequence of data events. -/
def applyData (st : RunnerState) : List PEvent → RunnerState
  | [] => st
  | e :: rest => applyData (runnerStep st e).1 rest

/-- Data events never settle the promise: the run of `evs ++ l` with `evs`
all data continues with `l` from the accumulated state. -/
theorem runEvents_append_data (evs : List PEvent) :
    ∀ (st : RunnerState), (∀ e ∈ evs, isDataEvent e = true) → ∀ (l : List PEvent),
      runEvents st (evs ++ l) = runEvents (applyData st evs) l := by
  induction evs with
  | nil => intro st _ l; rfl
  | cons e rest ih =>
    intro st hall l
    have hdata : isDataEvent e = true := hall e (List.mem_cons_self _ _)
    have hrest : ∀ e2 ∈ rest, isDataEvent e2 = true := fun e2 he2 =>
      hall e2 (List.mem_cons_of_mem _ he2)
    cases e with
    | stdoutData s => simp only [runEvents, runnerStep, applyData, List.cons_append]; exact ih _ hrest l
    | stderrData s => simp only [runEvents, runnerStep, applyData, List.cons_append]; exact ih _ hrest l
    | closeEvt code => simp [isDataEvent] at hdata
    | errorEvt m => simp [isDataEvent] at hdata

/-- C6: the log file handle is opened before the spawn (the initial state
is open) and, on every exit path — resolution with an exit code or
rejection on spawn error — it is closed and has been ended exactly once by
the time the result is delivered. -/
theorem c6_log_handle_lifecycle :
    initialRunnerState.logOpen = true
    ∧ (∀ (events : List PEvent) (st : RunnerState) (r : Except String Int),
        executeUnityBuild events = (st, some r) →
        st.logOpen = false ∧ st.closeCount = 1) := by
  constructor
  · rfl
  · intro events st r h
    have h2 := runEvents_closes events initialRunnerState st r h
    simpa [initialRunnerState] using h2

/-- Witness for C6: a run that closes with exit code 0. -/
theorem c6_log_handle_lifecycle_witness :
    executeUnityBuild [PEvent.closeEvt (some 0)]
      = ({ logChunks := [], console := [ConsoleLine.infoMsg "Unity build completed successfully."],
           logOpen := false, closeCount := 1 }, some (Except.ok 0))
    ∧ ({ logChunks := [], console := [ConsoleLine.infoMsg "Unity build completed successfully."],
         logOpen := false, closeCount := 1 } : RunnerState).logOpen = false
    ∧ ({ logChunks := [], console := [ConsoleLine.infoMsg "Unity build completed successfully."],
         logOpen := false, closeCount := 1 } : RunnerState).closeCount = 1 :=
  ⟨by decide,
    (c6_log_handle_lifecycle.2 [PEvent.closeEvt (some 0)] _ (Except.ok 0) (by decide)).1,
    (c6_log_handle_lifecycle.2 [PEvent.closeEvt (some 0)] _ (Except.ok 0) (by decide)).2⟩

/-- C7: for every delivered event sequence, the log file content is exactly
the sequence of chunks delivered by the two streams before termination, in
delivery order (each chunk appended exactly once), and the console echoes
exactly the same chunk sequence (each chunk echoed exactly once). -/
theorem c7_log_contains_all_chunks :
    ∀ (events : List PEvent),
      (executeUnityBuild events).1.logChunks = deliveredChunks events
      ∧ echoedChunks (executeUnityBuild events).1.console = deliveredChunks events := by
  intro events
  have h := runEvents_log events initialRunnerState
  simpa [executeUnityBuild, initialRunnerState, echoedChunks] using h

/-- C5: the runner resolves with the child's exit code (0 on success, the
child's own code on a clean non-zero exit) and the orchestrator exits with
it; a clean non-zero exit is reported as "Process exited with code: N";
a spawn error rejects, is reported as "Process failed: ...", and the
orchestrator exits 1 — so the two failure modes are distinct and both
non-zero. -/
theorem c5_exit_code_mapping :
    (∀ (events : List PEvent) (c : Int), (∀ e ∈ events, isDataEvent e = true) →
        (executeUnityBuild (events ++ [PEvent.closeEvt (some c)])).2 = some (Except.ok c)
        ∧ mainExitCode (Except.ok c) = c
        ∧ (c ≠ 0 →
            ((executeUnityBuild (events ++ [PEvent.closeEvt (some c)])).1.console).getLast?
              = some (ConsoleLine.errMsg ("Process exited with code: " ++ toString c)))
        ∧ (c = 0 →
            ((executeUnityBuild (events ++ [PEvent.closeEvt (some c)])).1.console).getLast?
              = some (ConsoleLine.infoMsg "Unity build completed successfully.")))
    ∧ (∀ (events : List PEvent) (m : String), (∀ e ∈ events, isDataEvent e = true) →
        (executeUnityBuild (events ++ [PEvent.errorEvt m])).2 = some (Except.error m)
        ∧ ((executeUnityBuild (events ++ [PEvent.errorEvt m])).1.console).getLast?
            = some (ConsoleLine.errMsg ("Process failed: " ++ m)))
    ∧ (∀ (m : String), mainExitCode (Except.error m) = 1) := by
  refine ⟨?_, ?_, ?_⟩
  · intro events c hall
    rw [executeUnityBuild, runEvents_append_data events initialRunnerState hall]
    refine ⟨?_, rfl, ?_, ?_⟩
    · simp [runEvents, runnerStep]
    · intro hc
      have hbeq : (some c == some (0 : Int)) = false := by
        simp [hc]
      simp [runEvents, runnerStep, hbeq, renderCode, List.getLast?_append_cons]
    · intro hc
      subst hc
      simp [runEvents, runnerStep, List.getLast?_append_cons]
  · intro events m hall
    rw [executeUnityBuild, runEvents_append_data events initialRunnerState hall]
    constructor
    · simp [runEvents, runnerStep]
    · simp [runEvents, runnerStep, List.getLast?_append_cons]
  · intro m
    rfl

/-- Witness for C5: a clean exit with code 2 after one stdout chunk. -/
theorem c5_exit_code_mapping_witness :
    (executeUnityBuild ([PEvent.stdoutData "x"] ++ [PEvent.closeEvt (some 2)])).2
        = some (Except.ok 2)
    ∧ mainExitCode (Except.ok 2) = 2
    ∧ ((executeUnityBuild ([PEvent.stdoutData "x"] ++ [PEvent.closeEvt (some 2)])).1.console).getLast?
        = some (ConsoleLine.errMsg ("Process exited with code: " ++ toString (2 : Int))) := by
  have h := c5_exit_code_mapping.1 [PEvent.stdoutData "x"] 2 (by decide)
  exact ⟨h.1, h.2.1, h.2.2.1 (by decide)⟩

/-- C10: a close event delivering a null exit code (e.g. the child was
terminated by a signal) makes the runner resolve with the failure code 1. -/
theorem c10_null_exit_resolves_one :
    ∀ (events : List PEvent), (∀ e ∈ events, isDataEvent e = true) →
      (executeUnityBuild (events ++ [PEvent.closeEvt none])).2 = some (Except.ok 1) := by
  intro events hall
  rw [executeUnityBuild, runEvents_append_data events initialRunnerState hall]
  simp [runEvents, runnerStep]

/-- Witness for C10: a null exit code after one stderr chunk. -/
theorem c10_null_exit_resolves_one_witness :
    (executeUnityBuild ([PEvent.stderrData "boom"] ++ [PEvent.closeEvt none])).2
      = some (Except.ok 1) :=
  c10_null_exit_resolves_one [PEvent.stderrData "boom"] (by decide)
